import Mathlib

/-!
Verification of the `undo_stack` history engine (`src/lib.rs`).

The engine stores history entries in two stacks (`past_stack`, `future_stack`)
of slots that are either a plain `Single` entry or a `Group` marker, plus a
transient one-slot `undo_buffer` and an `open_group` flag.

Embedding conventions:
* Rust `Vec<Kind<T>>` used as a stack (push / pop / last at the end) is
  modelled as a `List (Kind T)` whose HEAD is the top of the stack, so
  `Vec::push` is `::`, `Vec::pop` matches on the head and `Vec::last` is
  `head?`.
* The trait method `fn restore(self, target: &mut P) -> Self` is modelled as
  an explicit function argument `restore : T → P → T × P` returning the
  inverse entry together with the mutated project.
* `&mut self` methods become state-passing functions `UndoStack T → ... →
  UndoStack T`; `undo` / `redo` additionally thread the project and return
  the `Option T` result.
* Diagnostic printing (`maybe_print`, `println!`) has no observable effect on
  the state and is dropped; the `verbose` field is kept as data.
-/

set_option autoImplicit false

namespace UndoStackVerif

/-- `Kind<T>`: a slot on one of the stacks, either a group marker (no
payload) or a single undo value. -/
inductive Kind (T : Type) where
  | Group : Kind T
  | Single : T → Kind T
  deriving DecidableEq, Repr

/-- The `UndoStack<T>` struct: the two stacks, the transient buffer, the
open-group flag and the verbosity flag. -/
structure UndoStack (T : Type) where
  future_stack : List (Kind T)
  past_stack : List (Kind T)
  undo_buffer : Option T
  open_group : Bool
  verbose : Bool
  deriving DecidableEq, Repr

namespace UndoStack

variable {T P : Type}

/-- `UndoStack::new`. -/
def new (verbose : Bool) : UndoStack T :=
  { future_stack := []
    past_stack := []
    undo_buffer := none
    open_group := false
    verbose := verbose }

/-- `UndoStack::push`: no-op when the top of `past_stack` is a `Single`
equal to the new value, otherwise appends `Single(undo_value)` to
`past_stack` and clears `future_stack`. -/
def push [DecidableEq T] (s : UndoStack T) (undo_value : T) : UndoStack T :=
  match s.past_stack.head? with
  | some (Kind.Single top_value) =>
      if top_value = undo_value then s
      else { s with
              past_stack := Kind.Single undo_value :: s.past_stack
              future_stack := [] }
  | _ =>
      { s with
        past_stack := Kind.Single undo_value :: s.past_stack
        future_stack := [] }

/-- `UndoStack::start_group`: pushes a marker and sets the flag when no
group is open; otherwise only warns. -/
def start_group (s : UndoStack T) : UndoStack T :=
  if !s.open_group then
    { s with past_stack := Kind.Group :: s.past_stack, open_group := true }
  else
    s

/-- `UndoStack::finish_group`: pushes a marker and clears the flag when a
group is open; otherwise only warns. -/
def finish_group (s : UndoStack T) : UndoStack T :=
  if s.open_group then
    { s with past_stack := Kind.Group :: s.past_stack, open_group := false }
  else
    s

/-- `UndoStack::reopen_group`: pops the top of `past_stack`; a marker is
reinterpreted as an open-group boundary when no group is open (the marker
stays popped and the flag is set), a marker while a group is already open is
popped and dropped with a warning, and a `Single` is pushed back unchanged. -/
def reopen_group (s : UndoStack T) : UndoStack T :=
  match s.past_stack with
  | [] => s
  | Kind.Group :: rest =>
      if s.open_group then { s with past_stack := rest }
      else { s with past_stack := rest, open_group := true }
  | Kind.Single value :: rest =>
      { s with past_stack := Kind.Single value :: rest }

/-- The inner `loop` of `move_undo_value` after a group marker has been
popped from the source: restores consecutive `Single` entries, pushing each
inverse onto the destination, until a second marker (pushed and loop ends) or
the end of the source (warned and loop ends). Returns the remaining source,
the new destination and the mutated project. -/
def groupLoop (restore : T → P → T × P) :
    List (Kind T) → List (Kind T) → P → List (Kind T) × List (Kind T) × P
  | [], to_stack, project => ([], to_stack, project)
  | Kind.Group :: rest, to_stack, project =>
      (rest, Kind.Group :: to_stack, project)
  | Kind.Single value :: rest, to_stack, project =>
      let r := restore value project
      groupLoop restore rest (Kind.Single r.1 :: to_stack) r.2

/-- The final expression of `move_undo_value`: `to_stack.last()` mapped to
`None` for a marker and `Some value` for a `Single`. -/
def topValue : List (Kind T) → Option T
  | [] => none
  | Kind.Group :: _ => none
  | Kind.Single value :: _ => some value

/-- One traversal step on a (source, destination) pair: pops the source top;
a `Single` is restored and its inverse pushed to the destination; a marker
starts `groupLoop`; an empty source leaves everything unchanged. -/
def moveCore (restore : T → P → T × P) (from_stack to_stack : List (Kind T))
    (project : P) : List (Kind T) × List (Kind T) × P :=
  match from_stack with
  | [] => ([], to_stack, project)
  | Kind.Group :: rest =>
      groupLoop restore rest (Kind.Group :: to_stack) project
  | Kind.Single value :: rest =>
      let r := restore value project
      (rest, Kind.Single r.1 :: to_stack, r.2)

/-- `UndoStack::move_undo_value`: selects source and destination stacks from
`is_redo`, performs the traversal and returns the new state, the mutated
project and the top `Single` of the destination (if any). -/
def move_undo_value (restore : T → P → T × P) (s : UndoStack T) (project : P)
    (is_redo : Bool) : UndoStack T × P × Option T :=
  if is_redo then
    let step := moveCore restore s.future_stack s.past_stack project
    ({ s with future_stack := step.1, past_stack := step.2.1 },
      step.2.2, topValue step.2.1)
  else
    let step := moveCore restore s.past_stack s.future_stack project
    ({ s with past_stack := step.1, future_stack := step.2.1 },
      step.2.2, topValue step.2.1)

/-- `UndoStack::undo`. -/
def undo (restore : T → P → T × P) (s : UndoStack T) (project : P) :
    UndoStack T × P × Option T :=
  move_undo_value restore s project false

/-- `UndoStack::redo`. -/
def redo (restore : T → P → T × P) (s : UndoStack T) (project : P) :
    UndoStack T × P × Option T :=
  move_undo_value restore s project true

/-- `UndoStack::clear`. -/
def clear (s : UndoStack T) : UndoStack T :=
  { s with
    undo_buffer := none
    past_stack := []
    future_stack := []
    open_group := false }

/-- `UndoStack::is_empty`. -/
def is_empty (s : UndoStack T) : Bool :=
  s.past_stack.isEmpty && s.future_stack.isEmpty

/-- `UndoStack::buffer_is_empty`. -/
def buffer_is_empty (s : UndoStack T) : Bool :=
  s.undo_buffer.isNone

/-- `UndoStack::start_buffer`: auto-commits an already active buffer through
`push`, then stores the new value in the buffer. -/
def start_buffer [DecidableEq T] (s : UndoStack T) (value : T) : UndoStack T :=
  match s.undo_buffer with
  | some b => { push s b with undo_buffer := some value }
  | none => { s with undo_buffer := some value }

/-- `UndoStack::finish_buffer`: with an active buffer, pushes the buffered
value when it differs from `final_value` (else only warns) and clears the
buffer; with no active buffer, only warns. -/
def finish_buffer [DecidableEq T] (s : UndoStack T) (final_value : T) :
    UndoStack T :=
  match s.undo_buffer with
  | some value =>
      if value ≠ final_value then { push s value with undo_buffer := none }
      else { s with undo_buffer := none }
  | none => s

/-- `UndoStack::buffer`. -/
def buffer (s : UndoStack T) : Option T :=
  s.undo_buffer

/-- Specification fold: restores a list of entries against the project in
order, collecting the inverse entry returned by each `restore` call; used to
describe what a traversal does to a run of `Single` slots. -/
def restoreAll (restore : T → P → T × P) : List T → P → List T × P
  | [], p => ([], p)
  | t :: ts, p =>
      let r := restore t p
      let rs := restoreAll restore ts r.2
      (r.1 :: rs.1, rs.2)

/-- Caller protocol for a run of single pushes: for each mutation payload
`t`, the caller pushes an entry capturing the project's current relevant
state (`read p`) and then mutates the project (`write t p`). -/
def runScenario [DecidableEq T] (read : P → T) (write : T → P → P) :
    List T → UndoStack T → P → UndoStack T × P
  | [], s, p => (s, p)
  | t :: ts, s, p => runScenario read write ts (push s (read p)) (write t p)

/-- `n` successive `undo` calls, threading engine and project. -/
def undoN (restore : T → P → T × P) : Nat → UndoStack T → P → UndoStack T × P
  | 0, s, p => (s, p)
  | n + 1, s, p =>
      let u := undo restore s p
      undoN restore n u.1 u.2.1

/-- `n` successive `redo` calls, threading engine and project. -/
def redoN (restore : T → P → T × P) : Nat → UndoStack T → P → UndoStack T × P
  | 0, s, p => (s, p)
  | n + 1, s, p =>
      let u := redo restore s p
      redoN restore n u.1 u.2.1

/-- A valid undo history: `Chain read write p0 l p` says the slots `l`
(top first, all `Single`) record captures of a mutation history leading from
project state `p0` to the current state `p`: each slot holds the capture
`read q` of the state `q` that the corresponding mutation `write t q`
overwrote. -/
inductive Chain (read : P → T) (write : T → P → P) (p0 : P) :
    List (Kind T) → P → Prop where
  | nil : Chain read write p0 [] p0
  | cons (l : List (Kind T)) (q : P) (t : T) :
      Chain read write p0 l q →
      Chain read write p0 (Kind.Single (read q) :: l) (write t q)

/-- A valid redo history: `FChain read write l p pN` says replaying the
slots `l` (top first, all `Single`) forward from project state `p` reaches
state `pN`: each slot holds the capture of the state it steps the project
forward to. -/
inductive FChain (read : P → T) (write : T → P → P) :
    List (Kind T) → P → P → Prop where
  | nil (p : P) : FChain read write [] p p
  | cons (l : List (Kind T)) (q : P) (t : T) (pN : P) :
      FChain read write l (write t q) pN →
      FChain read write (Kind.Single (read (write t q)) :: l) q pN

/-- `push` never reads or writes the transient buffer, so it commutes with
updating `undo_buffer`. -/
theorem push_undo_buffer [DecidableEq T] (s : UndoStack T) (b : Option T)
    (v : T) :
    push { s with undo_buffer := b } v = { push s v with undo_buffer := b } := by
  unfold push
  cases h : s.past_stack.head? with
  | none => rfl
  | some k =>
      cases k with
      | Group => rfl
      | Single t =>
          by_cases ht : t = v <;> simp [ht]

/-- The deduplication branch of `push`: a value equal to the `Single` on top
of `past_stack` is dropped and the state is returned unchanged. -/
theorem push_dedup [DecidableEq T] (s : UndoStack T) (e : T)
    (h : s.past_stack.head? = some (Kind.Single e)) : push s e = s := by
  unfold push
  rw [h]
  simp

/-- The appending branch of `push`: when the top of `past_stack` is not a
`Single` equal to the new value, the entry is appended and Future cleared. -/
theorem push_append [DecidableEq T] (s : UndoStack T) (e : T)
    (h : s.past_stack.head? ≠ some (Kind.Single e)) :
    (push s e).past_stack = Kind.Single e :: s.past_stack ∧
    (push s e).future_stack = [] := by
  unfold push
  cases hh : s.past_stack.head? with
  | none => simp
  | some k =>
      cases k with
      | Group => simp
      | Single t =>
          have ht : ¬ t = e := by
            intro he
            exact h (by rw [hh, he])
          simp [ht]

/-- `restoreAll` returns one inverse entry per input entry. -/
theorem restoreAll_length (restore : T → P → T × P) (ts : List T) (p : P) :
    (restoreAll restore ts p).1.length = ts.length := by
  induction ts generalizing p with
  | nil => rfl
  | cons t ts ih => simp [restoreAll, ih]

/-- Running the traversal's inner loop over a run of `Single` slots with no
closing marker consumes the whole source, pushes the inverse of every entry
onto the destination (most recently produced first) and threads the project
through every `restore`. -/
theorem groupLoop_singles (restore : T → P → T × P) (ts : List T)
    (to_stack : List (Kind T)) (p : P) :
    groupLoop restore (ts.map Kind.Single) to_stack p
      = ([], (restoreAll restore ts p).1.reverse.map Kind.Single ++ to_stack,
          (restoreAll restore ts p).2) := by
  induction ts generalizing to_stack p with
  | nil => simp [groupLoop, restoreAll]
  | cons t ts ih =>
      simp [groupLoop, restoreAll, ih]

/-- `undo` with an empty Past moves nothing: state and project are returned
unchanged, together with Future's top value. -/
theorem undo_empty (restore : T → P → T × P) (s : UndoStack T) (p : P)
    (h : s.past_stack = []) :
    undo restore s p = (s, p, topValue s.future_stack) := by
  obtain ⟨fs, ps, buf, og, vb⟩ := s
  simp only at h
  subst h
  rfl

/-- `redo` with an empty Future moves nothing: state and project are
returned unchanged, together with Past's top value. -/
theorem redo_empty (restore : T → P → T × P) (s : UndoStack T) (p : P)
    (h : s.future_stack = []) :
    redo restore s p = (s, p, topValue s.past_stack) := by
  obtain ⟨fs, ps, buf, og, vb⟩ := s
  simp only at h
  subst h
  rfl

/-- `undo` with a `Single` on top of Past restores it against the project
and moves the returned inverse to Future. -/
theorem undo_single_step (restore : T → P → T × P) (s : UndoStack T) (p : P)
    (v : T) (rest : List (Kind T)) (h : s.past_stack = Kind.Single v :: rest) :
    undo restore s p
      = ({ s with
            past_stack := rest
            future_stack := Kind.Single (restore v p).1 :: s.future_stack },
          (restore v p).2,
          topValue (Kind.Single (restore v p).1 :: s.future_stack)) := by
  simp [undo, move_undo_value, moveCore, h]

/-- `redo` with a `Single` on top of Future restores it against the project
and moves the returned inverse to Past. -/
theorem redo_single_step (restore : T → P → T × P) (s : UndoStack T) (p : P)
    (v : T) (rest : List (Kind T))
    (h : s.future_stack = Kind.Single v :: rest) :
    redo restore s p
      = ({ s with
            future_stack := rest
            past_stack := Kind.Single (restore v p).1 :: s.past_stack },
          (restore v p).2,
          topValue (Kind.Single (restore v p).1 :: s.past_stack)) := by
  simp [redo, move_undo_value, moveCore, h]

/-- Running the single-push caller protocol preserves the undo-history
invariant: Past stays a valid `Chain` from the initial project state to the
current one, grows by at most one slot per push, and Future ends empty or
untouched. -/
theorem runScenario_chain [DecidableEq T] (read : P → T) (write : T → P → P)
    (hOverwrite : ∀ t u p, write t (write u p) = write t p) (ts : List T) :
    ∀ (s : UndoStack T) (p p0 : P),
      Chain read write p0 s.past_stack p →
      Chain read write p0 (runScenario read write ts s p).1.past_stack
          (runScenario read write ts s p).2 ∧
      (runScenario read write ts s p).1.past_stack.length
        ≤ s.past_stack.length + ts.length ∧
      ((runScenario read write ts s p).1.future_stack = []
        ∨ (runScenario read write ts s p).1.future_stack = s.future_stack) := by
  induction ts with
  | nil =>
      intro s p p0 h
      exact ⟨h, by simp [runScenario], Or.inr rfl⟩
  | cons t ts ih =>
      intro s p p0 h
      have hrun : runScenario read write (t :: ts) s p
          = runScenario read write ts (push s (read p)) (write t p) := rfl
      by_cases hd : s.past_stack.head? = some (Kind.Single (read p))
      · have hpush : push s (read p) = s := push_dedup s (read p) hd
        have hch : Chain read write p0 s.past_stack (write t p) := by
          cases hpa : s.past_stack with
          | nil =>
              rw [hpa] at hd
              simp at hd
          | cons k rest =>
              rw [hpa] at h
              cases h with
              | cons l q u hl =>
                  rw [hOverwrite]
                  exact Chain.cons _ _ t hl
        obtain ⟨hlast, hlen, hfut⟩ := ih s (write t p) p0 hch
        rw [hrun, hpush]
        refine ⟨hlast, ?_, hfut⟩
        simp only [List.length_cons]
        omega
      · obtain ⟨hp, hf⟩ := push_append s (read p) hd
        have hch : Chain read write p0 (push s (read p)).past_stack
            (write t p) := by
          rw [hp]
          exact Chain.cons s.past_stack p t h
        obtain ⟨hlast, hlen, hfut⟩ := ih (push s (read p)) (write t p) p0 hch
        rw [hrun]
        refine ⟨hlast, ?_, ?_⟩
        · rw [hp] at hlen
          simp only [List.length_cons] at hlen ⊢
          omega
        · rcases hfut with hfut | hfut
          · exact Or.inl hfut
          · rw [hf] at hfut
            exact Or.inl hfut

/-- Inverting `Chain` on an empty slot list: the current state is the
initial one. -/
theorem chain_nil_inv (read : P → T) (write : T → P → P) (p0 p : P)
    (h : Chain read write p0 [] p) : p = p0 := by
  cases h
  rfl

/-- Inverting `Chain` on a non-empty slot list: the top slot captures the
state `q` that the most recent mutation overwrote. -/
theorem chain_cons_inv (read : P → T) (write : T → P → P) (p0 p : P)
    (k : Kind T) (rest : List (Kind T))
    (h : Chain read write p0 (k :: rest) p) :
    ∃ q t, k = Kind.Single (read q) ∧ p = write t q ∧
      Chain read write p0 rest q := by
  cases h with
  | cons l q t hl => exact ⟨q, t, rfl, rfl, hl⟩

/-- Inverting `FChain` on an empty slot list: the current state is already
the final one. -/
theorem fchain_nil_inv (read : P → T) (write : T → P → P) (p pN : P)
    (h : FChain read write [] p pN) : p = pN := by
  cases h
  rfl

/-- Inverting `FChain` on a non-empty slot list: the top slot captures the
state the next replayed mutation steps the project to. -/
theorem fchain_cons_inv (read : P → T) (write : T → P → P) (p pN : P)
    (k : Kind T) (rest : List (Kind T))
    (h : FChain read write (k :: rest) p pN) :
    ∃ t, k = Kind.Single (read (write t p)) ∧
      FChain read write rest (write t p) pN := by
  cases h with
  | cons l q t pNv hl => exact ⟨t, rfl, hl⟩

/-- Draining a valid undo history: with Past a valid `Chain` from `p0` to
the current project `p` and Future a valid `FChain` from `p` to `pN`,
performing at least `past.length` undos returns the project to `p0`,
empties Past, leaves Future a valid `FChain` from `p0` to `pN`, and grows
Future by at most one slot per undo performed. -/
theorem undoN_chain (read : P → T) (write : T → P → P)
    (restore : T → P → T × P)
    (hrestore : ∀ t p, restore t p = (read p, write t p))
    (hWriteRead : ∀ p, write (read p) p = p)
    (hOverwrite : ∀ t u p, write t (write u p) = write t p)
    (p0 pN : P) :
    ∀ (n : Nat) (s : UndoStack T) (p : P),
      Chain read write p0 s.past_stack p →
      FChain read write s.future_stack p pN →
      s.past_stack.length ≤ n →
      (undoN restore n s p).2 = p0 ∧
      (undoN restore n s p).1.past_stack = [] ∧
      FChain read write (undoN restore n s p).1.future_stack p0 pN ∧
      (undoN restore n s p).1.future_stack.length
        ≤ s.future_stack.length + s.past_stack.length := by
  intro n
  induction n with
  | zero =>
      intro s p hc hF hlen
      have hnil : s.past_stack = [] := List.eq_nil_of_length_eq_zero
        (Nat.le_zero.mp hlen)
      rw [hnil] at hc
      have hp0 : p = p0 := chain_nil_inv read write p0 p hc
      subst hp0
      refine ⟨rfl, hnil, hF, ?_⟩
      simp only [undoN]
      omega
  | succ n ih =>
      intro s p hc hF hlen
      cases hpa : s.past_stack with
      | nil =>
          rw [hpa] at hc
          have hp0 : p = p0 := chain_nil_inv read write p0 p hc
          subst hp0
          have hstep : undoN restore (n + 1) s p = undoN restore n s p := by
            simp [undoN, undo_empty restore s p hpa]
          rw [hstep]
          obtain ⟨h1, h2, h3, h4⟩ := ih s p (by rw [hpa]; exact Chain.nil)
            hF (by rw [hpa]; simp)
          refine ⟨h1, h2, h3, ?_⟩
          rw [hpa] at h4
          simpa using h4
      | cons k rest =>
          rw [hpa] at hc
          obtain ⟨q, u, hk, hpq, hl⟩ := chain_cons_inv read write p0 p k rest hc
          have hres : restore (read q) p = (read p, q) := by
            rw [hrestore, hpq, hOverwrite, hWriteRead]
          have hstep : undoN restore (n + 1) s p
              = undoN restore n
                  { s with
                    past_stack := rest
                    future_stack := Kind.Single (read p)
                      :: s.future_stack } q := by
            have hsingle := undo_single_step restore s p (read q) rest
              (by rw [hpa, hk])
            simp [undoN, hsingle, hres]
          rw [hstep]
          have hF2 : FChain read write
              (Kind.Single (read p) :: s.future_stack) q pN := by
            have hF' : FChain read write s.future_stack (write u q) pN := by
              rw [← hpq]
              exact hF
            have := FChain.cons s.future_stack q u pN hF'
            rw [← hpq] at this
            exact this
          obtain ⟨h1, h2, h3, h4⟩ := ih
            { s with
              past_stack := rest
              future_stack := Kind.Single (read p) :: s.future_stack }
            q hl hF2 (by
              rw [hpa] at hlen
              simp only [List.length_cons] at hlen
              show rest.length ≤ n
              omega)
          refine ⟨h1, h2, h3, ?_⟩
          simp at h4 ⊢
          omega

/-- Replaying a valid redo history: with Future a valid `FChain` from the
current project `p` to `pN`, performing at least `future.length` redos
brings the project to `pN`. -/
theorem redoN_fchain (read : P → T) (write : T → P → P)
    (restore : T → P → T × P)
    (hrestore : ∀ t p, restore t p = (read p, write t p))
    (hReadWrite : ∀ t p, read (write t p) = t)
    (pN : P) :
    ∀ (n : Nat) (s : UndoStack T) (p : P),
      FChain read write s.future_stack p pN →
      s.future_stack.length ≤ n →
      (redoN restore n s p).2 = pN := by
  intro n
  induction n with
  | zero =>
      intro s p hF hlen
      have hnil : s.future_stack = [] := List.eq_nil_of_length_eq_zero
        (Nat.le_zero.mp hlen)
      rw [hnil] at hF
      exact fchain_nil_inv read write p pN hF
  | succ n ih =>
      intro s p hF hlen
      cases hfu : s.future_stack with
      | nil =>
          rw [hfu] at hF
          have hpN : p = pN := fchain_nil_inv read write p pN hF
          subst hpN
          have hstep : redoN restore (n + 1) s p = redoN restore n s p := by
            simp [redoN, redo_empty restore s p hfu]
          rw [hstep]
          exact ih s p (by rw [hfu]; exact FChain.nil p) (by rw [hfu]; simp)
      | cons k rest =>
          rw [hfu] at hF
          obtain ⟨u, hk, hl⟩ := fchain_cons_inv read write p pN k rest hF
          have hres : restore (read (write u p)) p = (read p, write u p) := by
            rw [hrestore, hReadWrite]
          have hstep : redoN restore (n + 1) s p
              = redoN restore n
                  { s with
                    future_stack := rest
                    past_stack := Kind.Single (read p)
                      :: s.past_stack } (write u p) := by
            have hsingle := redo_single_step restore s p (read (write u p))
              rest (by rw [hfu, hk])
            simp [redoN, hsingle, hres]
          rw [hstep]
          exact ih _ (write u p) hl (by
            rw [hfu] at hlen
            simp only [List.length_cons] at hlen
            show rest.length ≤ n
            omega)

end UndoStack

namespace Claims

open UndoStack

/-- Claim C4 (counterexample): pushing an entry equal to the `Single` on top
of `past_stack` is deduplicated and does not clear `future_stack`, so a push
does not always empty the Future sequence. -/
theorem claim_C4_counterexample :
    (push { future_stack := [Kind.Single 0], past_stack := [Kind.Single 1],
            undo_buffer := none, open_group := false,
            verbose := false } (1 : ℕ)).future_stack ≠ [] := by
  decide

/-- Claim C4 (amended): after `push e`, the Future sequence is empty unless
the push was deduplicated (Past's top slot is `Single e`), in which case the
whole engine state, Future included, is left unchanged. -/
theorem claim_C4 {T : Type} [DecidableEq T] (s : UndoStack T) (e : T) :
    (s.past_stack.head? = some (Kind.Single e) → push s e = s) ∧
    (s.past_stack.head? ≠ some (Kind.Single e) →
      (push s e).future_stack = [] ∧
      (push s e).past_stack = Kind.Single e :: s.past_stack) := by
  unfold push
  cases h : s.past_stack.head? with
  | none => simp
  | some k =>
      cases k with
      | Group => simp
      | Single t =>
          by_cases ht : t = e <;> simp [ht]

/-- Claim C4 (witness): on concrete states, a deduplicated push leaves the
state unchanged and a non-deduplicated push empties `future_stack`. -/
theorem claim_C4_witness :
    push { future_stack := [Kind.Single 9], past_stack := [Kind.Single 1],
           undo_buffer := none, open_group := false, verbose := false } (1 : ℕ)
      = { future_stack := [Kind.Single 9], past_stack := [Kind.Single 1],
          undo_buffer := none, open_group := false, verbose := false } ∧
    (push { future_stack := [Kind.Single 9], past_stack := [Kind.Single 1],
            undo_buffer := none, open_group := false,
            verbose := false } (2 : ℕ)).future_stack = [] :=
  ⟨(claim_C4 _ 1).1 (by decide), ((claim_C4 _ 2).2 (by decide)).1⟩

/-- Claim C5: pushing a value equal to the `Single` on top of Past is a
no-op; pushing the same value twice in a row is the same as pushing it once
(the second push adds nothing), and a non-deduplicated push grows Past by
exactly one slot. -/
theorem claim_C5 {T : Type} [DecidableEq T] (s : UndoStack T) (e : T) :
    (s.past_stack.head? = some (Kind.Single e) → push s e = s) ∧
    push (push s e) e = push s e ∧
    (s.past_stack.head? ≠ some (Kind.Single e) →
      (push s e).past_stack.length = s.past_stack.length + 1) := by
  refine ⟨push_dedup s e, ?_, fun h => by rw [(push_append s e h).1]; simp⟩
  by_cases h : s.past_stack.head? = some (Kind.Single e)
  · have hd := push_dedup s e h
    rw [hd]
    exact hd
  · exact push_dedup _ _ (by rw [(push_append s e h).1]; rfl)

/-- Claim C5 (witness): pushing `3` twice in a row onto a fresh engine
leaves Past with exactly one slot. -/
theorem claim_C5_witness :
    push (push (new false) (3 : ℕ)) 3 = push (new false) 3 ∧
    (push (new false : UndoStack ℕ) 3).past_stack.length
      = (new false : UndoStack ℕ).past_stack.length + 1 :=
  ⟨(claim_C5 (new false) 3).2.1, (claim_C5 (new false) 3).2.2 (by decide)⟩

/-- Claim C6 (counterexample): `undo` with an empty Past does not return
nothing when the top of Future is a `Single`; it reports the destination's
top value even though no movement occurred. -/
theorem claim_C6_counterexample :
    (undo (fun (t : ℕ) (p : ℕ) => (p, t))
      { future_stack := [Kind.Single 7], past_stack := [], undo_buffer := none,
        open_group := false, verbose := false } 0).2.2 = some 7 := by
  decide

/-- Claim C6 (amended): `undo` with an empty Past (and `redo` with an empty
Future) leaves the engine state and the project completely unchanged — hence
it is safely repeatable — but returns the top `Single` of the destination
sequence (if any) rather than always returning nothing. -/
theorem claim_C6 {T P : Type} (restore : T → P → T × P) (s : UndoStack T)
    (p : P) :
    (s.past_stack = [] →
      undo restore s p = (s, p, topValue s.future_stack)) ∧
    (s.future_stack = [] →
      redo restore s p = (s, p, topValue s.past_stack)) := by
  obtain ⟨fs, ps, buf, og, vb⟩ := s
  constructor
  · intro h
    simp only at h
    subst h
    rfl
  · intro h
    simp only at h
    subst h
    rfl

/-- Claim C6 (witness): on a fresh engine, both `undo` and `redo` are exact
no-ops returning nothing. -/
theorem claim_C6_witness :
    undo (fun (t : ℕ) (p : ℕ) => (p, t)) (new false) 5
      = (new false, 5, none) ∧
    redo (fun (t : ℕ) (p : ℕ) => (p, t)) (new false) 5
      = (new false, 5, none) :=
  ⟨(claim_C6 _ (new false) 5).1 rfl, (claim_C6 _ (new false) 5).2 rfl⟩

/-- Claim C7 (counterexample): `reopen_group` called while a group is open
and with a `Group` marker on top of Past pops and discards that marker, so
the rejected call does not leave Past unchanged. -/
theorem claim_C7_counterexample :
    reopen_group { future_stack := ([] : List (Kind ℕ)),
                   past_stack := [Kind.Group], undo_buffer := none,
                   open_group := true, verbose := false }
      ≠ { future_stack := [], past_stack := [Kind.Group], undo_buffer := none,
          open_group := true, verbose := false } := by
  decide

/-- Claim C7 (amended): a rejected `start_group` (already open), a rejected
`finish_group` (not open) and a rejected `reopen_group` on an empty Past or
a non-marker top slot all leave the engine state exactly unchanged; but
`reopen_group` while a group is open with a marker on top pops and discards
that marker (only `past_stack` shrinks by that one slot). -/
theorem claim_C7 {T : Type} (s : UndoStack T) (v : T) (rest : List (Kind T)) :
    (s.open_group = true → start_group s = s) ∧
    (s.open_group = false → finish_group s = s) ∧
    (s.past_stack = [] → reopen_group s = s) ∧
    (s.past_stack = Kind.Single v :: rest → reopen_group s = s) ∧
    (s.past_stack = Kind.Group :: rest → s.open_group = true →
      reopen_group s = { s with past_stack := rest }) := by
  refine ⟨?_, ?_, ?_, ?_, ?_⟩
  · intro h
    simp [start_group, h]
  · intro h
    simp [finish_group, h]
  · intro h
    unfold reopen_group
    rw [h]
  · intro h
    obtain ⟨fs, ps, buf, og, vb⟩ := s
    simp only at h
    subst h
    rfl
  · intro h hog
    unfold reopen_group
    rw [h]
    simp [hog]

/-- Claim C7 (witness): concrete rejected calls, plus the marker-dropping
`reopen_group` case on `past_stack = [Group]` with the flag set. -/
theorem claim_C7_witness :
    start_group { future_stack := ([] : List (Kind ℕ)),
                  past_stack := [Kind.Group], undo_buffer := none,
                  open_group := true, verbose := false }
      = { future_stack := [], past_stack := [Kind.Group], undo_buffer := none,
          open_group := true, verbose := false } ∧
    reopen_group { future_stack := ([] : List (Kind ℕ)),
                   past_stack := [Kind.Group], undo_buffer := none,
                   open_group := true, verbose := false }
      = { future_stack := [], past_stack := [], undo_buffer := none,
          open_group := true, verbose := false } :=
  ⟨(claim_C7 _ (0 : ℕ) []).1 rfl,
    (claim_C7 { future_stack := ([] : List (Kind ℕ)),
                past_stack := [Kind.Group], undo_buffer := none,
                open_group := true, verbose := false } (0 : ℕ) []).2.2.2.2
      rfl rfl⟩

/-- Claim C8 (counterexample): with Past already topped by `Single 5`,
`start_buffer 5; finish_buffer 7` appends nothing (the ordinary push path
deduplicates the buffered value), so the commit does not always append
exactly one entry. -/
theorem claim_C8_counterexample :
    (finish_buffer
      (start_buffer { future_stack := ([] : List (Kind ℕ)),
                      past_stack := [Kind.Single 5], undo_buffer := none,
                      open_group := false, verbose := false } 5)
      7).past_stack = [Kind.Single 5] := by
  decide

/-- Claim C8 (amended): starting from a state with no active buffer,
`start_buffer v0; finish_buffer v0` restores the state exactly (Past
unmodified, buffer cleared); `start_buffer v0; finish_buffer v1` with
`v0 ≠ v1` commits `v0` through the ordinary `push` path and clears the
buffer — appending one `Single v0` except when `push`'s deduplication fires
because Past's top already equals `Single v0`. -/
theorem claim_C8 {T : Type} [DecidableEq T] (s : UndoStack T) (v0 v1 : T)
    (h : s.undo_buffer = none) :
    finish_buffer (start_buffer s v0) v0 = s ∧
    (v0 ≠ v1 → finish_buffer (start_buffer s v0) v1
      = { push s v0 with undo_buffer := none }) := by
  have hst : start_buffer s v0 = { s with undo_buffer := some v0 } := by
    unfold start_buffer
    rw [h]
  constructor
  · rw [hst]
    unfold finish_buffer
    simp only
    rw [if_neg (by simp)]
    rw [← h]
  · intro hne
    rw [hst]
    unfold finish_buffer
    simp only
    rw [if_pos hne]
    rw [push_undo_buffer]

/-- Claim C8 (witness): on a fresh engine, committing an unchanged buffer
value leaves the engine untouched and committing a changed one appends the
original buffered value. -/
theorem claim_C8_witness :
    finish_buffer (start_buffer (new false) (3 : ℕ)) 3 = new false ∧
    finish_buffer (start_buffer (new false) (3 : ℕ)) 4
      = { push (new false) 3 with undo_buffer := none } :=
  ⟨(claim_C8 (new false) 3 3 rfl).1,
    (claim_C8 (new false) 3 4 rfl).2 (by decide)⟩

/-- Claim C9: `start_buffer w` while a buffer holding `v` is active commits
`v` through the ordinary `push` path (Past and Future become those of
`push s v`) and then stores `w` in the buffer; the open-group flag is
untouched and `v` is never silently discarded. -/
theorem claim_C9 {T : Type} [DecidableEq T] (s : UndoStack T) (v w : T)
    (h : s.undo_buffer = some v) :
    (start_buffer s w).undo_buffer = some w ∧
    (start_buffer s w).past_stack = (push s v).past_stack ∧
    (start_buffer s w).future_stack = (push s v).future_stack ∧
    (start_buffer s w).open_group = s.open_group := by
  have hst : start_buffer s w = { push s v with undo_buffer := some w } := by
    unfold start_buffer
    rw [h]
  rw [hst]
  refine ⟨rfl, rfl, rfl, ?_⟩
  show (push s v).open_group = s.open_group
  unfold push
  cases hh : s.past_stack.head? with
  | none => rfl
  | some k =>
      cases k with
      | Group => rfl
      | Single t =>
          by_cases ht : t = v <;> simp [ht]

/-- Claim C9 (witness): starting a buffer over an active one holding `1`
commits `1` to Past and stores the new value `2`. -/
theorem claim_C9_witness :
    (start_buffer { future_stack := ([] : List (Kind ℕ)), past_stack := [],
                    undo_buffer := some 1, open_group := false,
                    verbose := false } 2).undo_buffer = some 2 ∧
    (start_buffer { future_stack := ([] : List (Kind ℕ)), past_stack := [],
                    undo_buffer := some 1, open_group := false,
                    verbose := false } 2).past_stack
      = (push { future_stack := ([] : List (Kind ℕ)), past_stack := [],
                undo_buffer := some 1, open_group := false,
                verbose := false } 1).past_stack :=
  ⟨(claim_C9 _ 1 2 rfl).1, (claim_C9 _ 1 2 rfl).2.1⟩

/-- Claim C10: `undo` and `redo` only touch the two stacks and the project:
the transient buffer slot and the open-group flag are left unchanged by any
traversal. -/
theorem claim_C10 {T P : Type} (restore : T → P → T × P) (s : UndoStack T)
    (p : P) :
    (undo restore s p).1.undo_buffer = s.undo_buffer ∧
    (undo restore s p).1.open_group = s.open_group ∧
    (redo restore s p).1.undo_buffer = s.undo_buffer ∧
    (redo restore s p).1.open_group = s.open_group := by
  refine ⟨?_, ?_, ?_, ?_⟩ <;> rfl

/-- Claim C3: when the traversal source holds a group marker on top followed
only by `Single` slots and no closing marker (an unterminated group), `undo`
(resp. `redo`) restores every one of those entries against the project in
order, moves the marker and each returned inverse to the destination, and
halts: nothing is rolled back, the source ends empty (shorter by the
`ts.length + 1` slots moved), and the destination grows by exactly those
`ts.length + 1` slots. -/
theorem claim_C3 {T P : Type} (restore : T → P → T × P) (ts : List T)
    (others : List (Kind T)) (buf : Option T) (og vb : Bool) (p : P) :
    (let s : UndoStack T :=
      { future_stack := others, past_stack := Kind.Group :: ts.map Kind.Single,
        undo_buffer := buf, open_group := og, verbose := vb }
     let u := undo restore s p
     u.1.past_stack = [] ∧
     u.1.future_stack
        = (restoreAll restore ts p).1.reverse.map Kind.Single
            ++ Kind.Group :: others ∧
     u.1.future_stack.length = others.length + (ts.length + 1) ∧
     u.2.1 = (restoreAll restore ts p).2) ∧
    (let s : UndoStack T :=
      { future_stack := Kind.Group :: ts.map Kind.Single, past_stack := others,
        undo_buffer := buf, open_group := og, verbose := vb }
     let r := redo restore s p
     r.1.future_stack = [] ∧
     r.1.past_stack
        = (restoreAll restore ts p).1.reverse.map Kind.Single
            ++ Kind.Group :: others ∧
     r.1.past_stack.length = others.length + (ts.length + 1) ∧
     r.2.1 = (restoreAll restore ts p).2) := by
  refine ⟨⟨?_, ?_, ?_, ?_⟩, ⟨?_, ?_, ?_, ?_⟩⟩
  all_goals
    simp [undo, redo, move_undo_value, moveCore, groupLoop_singles,
      restoreAll_length]
  all_goals
    omega

/-- Claim C1: when `restore` satisfies the §4.1 contract — it writes the
entry's payload into the project and returns the capture of the overwritten
relevant state, formalized by a coherent read/write pair — the sequence
`start_group; push a; finish_group`-style group usage
(`start_group(); push(a); push(b); finish_group()` with `a`, `b` capturing
the states the two interleaved mutations overwrite) satisfies group
atomicity on a fresh engine: one `undo` returns the project to its pre-group
state `p0` and one subsequent `redo` returns it to the post-group state. -/
theorem claim_C1 {T P : Type} [DecidableEq T]
    (read : P → T) (write : T → P → P) (restore : T → P → T × P)
    (hrestore : ∀ t p, restore t p = (read p, write t p))
    (hWriteRead : ∀ p, write (read p) p = p)
    (hReadWrite : ∀ t p, read (write t p) = t)
    (hOverwrite : ∀ t u p, write t (write u p) = write t p)
    (p0 : P) (ta tb : T) (a b : T)
    (ha : a = read p0) (hb : b = read (write ta p0)) :
    (undo restore
        (finish_group (push (push (start_group (new false : UndoStack T)) a) b))
        (write tb (write ta p0))).2.1 = p0 ∧
    (redo restore
        (undo restore
          (finish_group
            (push (push (start_group (new false : UndoStack T)) a) b))
          (write tb (write ta p0))).1
        (undo restore
          (finish_group
            (push (push (start_group (new false : UndoStack T)) a) b))
          (write tb (write ta p0))).2.1).2.1
      = write tb (write ta p0) := by
  subst ha hb
  by_cases hab : read p0 = ta
  · have h1 : write ta p0 = p0 := by rw [← hab, hWriteRead]
    simp [new, start_group, finish_group, push, undo, redo,
      move_undo_value, moveCore, groupLoop, topValue, hrestore,
      hOverwrite, hWriteRead, hReadWrite, h1, hab]
  · simp [new, start_group, finish_group, push, undo, redo,
      move_undo_value, moveCore, groupLoop, topValue, hrestore,
      hOverwrite, hWriteRead, hReadWrite, hab]

/-- Claim C1 (witness): a concrete two-entry group over a `ℕ` project with
the identity lens: one `undo` returns the project from `30` to `10`, one
`redo` returns it to `30`. -/
theorem claim_C1_witness :
    (undo (fun (t p : ℕ) => (p, t))
        (finish_group (push (push (start_group (new false)) 10) 20)) 30).2.1
      = 10 ∧
    (redo (fun (t p : ℕ) => (p, t))
        (undo (fun (t p : ℕ) => (p, t))
          (finish_group (push (push (start_group (new false)) 10) 20)) 30).1
        (undo (fun (t p : ℕ) => (p, t))
          (finish_group (push (push (start_group (new false)) 10) 20)) 30).2.1).2.1
      = 30 := by
  have h := claim_C1 (T := ℕ) (P := ℕ) id (fun t _ => t) (fun t p => (p, t))
    (fun _ _ => rfl) (fun _ => rfl) (fun _ _ => rfl) (fun _ _ _ => rfl)
    10 20 30 10 20 rfl rfl
  exact h

/-- Claim C2 (undo/redo inverse law): with `restore` satisfying the §4.1
contract (coherent read/write pair) and each push capturing the project
state right before the corresponding mutation, running any sequence of `n`
mutations on a fresh engine, then `undo` `n` times, returns the project to
the initial state `p0`; `redo` `n` times then returns it to the state the
project had right after the last mutation — the state captured right before
the first undo. -/
theorem claim_C2 {T P : Type} [DecidableEq T]
    (read : P → T) (write : T → P → P) (restore : T → P → T × P)
    (hrestore : ∀ t p, restore t p = (read p, write t p))
    (hWriteRead : ∀ p, write (read p) p = p)
    (hReadWrite : ∀ t p, read (write t p) = t)
    (hOverwrite : ∀ t u p, write t (write u p) = write t p)
    (ts : List T) (p0 : P) :
    (undoN restore ts.length
        (runScenario read write ts (new false : UndoStack T) p0).1
        (runScenario read write ts (new false : UndoStack T) p0).2).2 = p0 ∧
    (redoN restore ts.length
        (undoN restore ts.length
          (runScenario read write ts (new false : UndoStack T) p0).1
          (runScenario read write ts (new false : UndoStack T) p0).2).1
        (undoN restore ts.length
          (runScenario read write ts (new false : UndoStack T) p0).1
          (runScenario read write ts (new false : UndoStack T) p0).2).2).2
      = (runScenario read write ts (new false : UndoStack T) p0).2 := by
  set A := runScenario read write ts (new false : UndoStack T) p0 with hA
  set U := undoN restore ts.length A.1 A.2 with hU
  obtain ⟨hchain, hlen, hfut⟩ :=
    runScenario_chain read write hOverwrite ts (new false) p0 p0 Chain.nil
  have hfut0 : A.1.future_stack = [] := by
    rcases hfut with hfut | hfut
    · exact hfut
    · exact hfut
  have hF : FChain read write A.1.future_stack A.2 A.2 := by
    rw [hfut0]
    exact FChain.nil A.2
  have hlen0 : A.1.past_stack.length ≤ ts.length := by
    simpa [new] using hlen
  obtain ⟨hU2, hUpast, hUF, hUlen⟩ := undoN_chain read write restore hrestore
    hWriteRead hOverwrite p0 A.2 ts.length A.1 A.2 hchain hF hlen0
  refine ⟨hU2, ?_⟩
  apply redoN_fchain read write restore hrestore hReadWrite A.2 ts.length
    U.1 U.2
  · rw [hU2]
    exact hUF
  · rw [hfut0] at hUlen
    simp only [List.length_nil, Nat.zero_add] at hUlen
    exact le_trans hUlen hlen0

/-- Claim C2 (witness): three pushes with mutations `0 → 1 → 2 → 3` of a
`ℕ` project under the identity lens; three undos return the project to `0`
and three redos return it to `3`. -/
theorem claim_C2_witness :
    (undoN (fun (t p : ℕ) => (p, t)) 3
        (runScenario id (fun t _ => t) [1, 2, 3] (new false) 0).1
        (runScenario id (fun t _ => t) [1, 2, 3] (new false) 0).2).2 = 0 ∧
    (redoN (fun (t p : ℕ) => (p, t)) 3
        (undoN (fun (t p : ℕ) => (p, t)) 3
          (runScenario id (fun t _ => t) [1, 2, 3] (new false) 0).1
          (runScenario id (fun t _ => t) [1, 2, 3] (new false) 0).2).1
        (undoN (fun (t p : ℕ) => (p, t)) 3
          (runScenario id (fun t _ => t) [1, 2, 3] (new false) 0).1
          (runScenario id (fun t _ => t) [1, 2, 3] (new false) 0).2).2).2
      = (runScenario id (fun t _ => t) [1, 2, 3] (new false) 0).2 := by
  have h := claim_C2 (T := ℕ) (P := ℕ) id (fun t _ => t) (fun t p => (p, t))
    (fun _ _ => rfl) (fun _ => rfl) (fun _ _ => rfl) (fun _ _ _ => rfl)
    [1, 2, 3] 0
  exact h

end Claims

end UndoStackVerif
